import Mathlib

/-!
Shallow embedding of the nl-syntree library (library/document.py,
library/operations.py, providers/google_cloud.py) and proofs about it.

Conventions of the embedding:
* Python generators become Lean functions returning `List`.
* The opaque part-of-speech and dependency-label codes (integer enum values of
  the Google Cloud client library) become `Nat` constants.
* A Python `dict` used only as a display lookup table becomes
  `Option (Nat → String)` (absent table = `none`).
* The `TypeError` raised on an invalid `doc_or_sentence` argument becomes
  `Except String`.
* The unbounded recursion of `_create_tree` becomes recursion on an explicit
  fuel parameter; on well-formed token arrays a fuel of `tokens.length`
  is proved sufficient.
-/

namespace NLS

/-! Dependency-edge label codes (`enums.DependencyEdge.Label`). The concrete
numbers are the enum values of the client library; only their distinctness is
ever used. -/

namespace Label

def ROOT : Nat := 54

def NSUBJ : Nat := 28

def NSUBJPASS : Nat := 29

def DOBJ : Nat := 18

def POBJ : Nat := 36

def PREP : Nat := 43

end Label

/-! Part-of-speech tag codes (`enums.PartOfSpeech.Tag`). -/

namespace Tag

def VERB : Nat := 11

end Tag

/-- One word (tree node) of the natural language syntax tree
(`library/document.py`, class `Tree`).  The Python attribute `lemma` is named
`lem` here because `lemma` is a declaration keyword in this environment. -/
inductive Tree : Type where
  | node (index : Nat) (label : Nat) (content : String) (lem : String)
      (pos_tag : Nat) (pos_tag_mapping : Option (Nat → String))
      (label_mapping : Option (Nat → String)) (children : List Tree)

namespace Tree

def index : Tree → Nat
  | .node i _ _ _ _ _ _ _ => i

def label : Tree → Nat
  | .node _ l _ _ _ _ _ _ => l

def content : Tree → String
  | .node _ _ c _ _ _ _ _ => c

def lem : Tree → String
  | .node _ _ _ lm _ _ _ _ => lm

def pos_tag : Tree → Nat
  | .node _ _ _ _ p _ _ _ => p

def pos_tag_mapping : Tree → Option (Nat → String)
  | .node _ _ _ _ _ pm _ _ => pm

def label_mapping : Tree → Option (Nat → String)
  | .node _ _ _ _ _ _ lm _ => lm

def children : Tree → List Tree
  | .node _ _ _ _ _ _ _ cs => cs

end Tree

mutual

/-- Pre-order traversal (`Tree.walk`): yield the node itself, then the walk of
each child in child order. -/
def Tree.walk : Tree → List Tree
  | .node i l c lm p pm lbm cs => .node i l c lm p pm lbm cs :: Tree.walkList cs

/-- Helper of the embedding: the concatenation of the walks of a list of
trees, i.e. the `for child in self.children` loop of `Tree.walk`. -/
def Tree.walkList : List Tree → List Tree
  | [] => []
  | t :: ts => Tree.walk t ++ Tree.walkList ts

end

/-- `Tree.filtered_walk`: traversal in `walk` order keeping only the nodes
accepted by `filter_func`, which receives the node `walk` was invoked on and
the candidate node. -/
def Tree.filtered_walk (t : Tree) (filter_func : Tree → Tree → Bool) : List Tree :=
  t.walk.filter (filter_func t)

/-- A single-quote character as a string, used by the verbose node
representation. -/
def squote : String := String.singleton (Char.ofNat 39)

/-- String repetition, the Python expression `s * n`. -/
def strRepeat (s : String) : Nat → String
  | 0 => ""
  | n + 1 => s ++ strRepeat s n

/-- Non-recursive string representation of one node
(`Tree.get_string_repr`).  A present lookup table translates the numeric
code; an absent one falls back to the raw code. -/
def Tree.get_string_repr (t : Tree) (verbose : Bool) : String :=
  let pos_tag := match t.pos_tag_mapping with
    | some m => m t.pos_tag
    | none => toString t.pos_tag
  let label := match t.label_mapping with
    | some m => m t.label
    | none => toString t.label
  if verbose then
    "Tree(index=" ++ toString t.index ++ ",label=" ++ squote ++ label ++ squote ++
      ", content=" ++ squote ++ t.content ++ squote ++
      ", lemma=" ++ squote ++ t.lem ++ squote ++
      ", pos_tag=" ++ squote ++ pos_tag ++ squote ++
      ", children=[" ++
      String.intercalate "," (t.children.map (fun c => toString c.index)) ++ "])"
  else
    t.content ++ " (pos_tag=" ++ pos_tag ++ ", label=" ++ label ++ ")"

mutual

/-- Lines of the printable tree (`Tree._get_tree_statements`).  `max_depth`
is `none` for no limit; the cutoff fires exactly when the remaining budget is
`some 0`. -/
def Tree._get_tree_statements : Tree → Option Int → Nat → Bool → List String
  | .node i l c lm p pm lbm cs, max_depth, depth, verbose =>
    if max_depth = some 0 then []
    else
      let pfx := (if depth ≤ 2 then "" else strRepeat "   " (depth - 2)) ++
        (if depth = 1 then "" else "|- ")
      (pfx ++ (Tree.node i l c lm p pm lbm cs).get_string_repr verbose) ::
        Tree.statementsList cs (max_depth.map (· - 1)) (depth + 1) verbose

/-- Helper of the embedding: the `for n in self.children` loop of
`Tree._get_tree_statements`. -/
def Tree.statementsList : List Tree → Option Int → Nat → Bool → List String
  | [], _, _, _ => []
  | t :: ts, max_depth, depth, verbose =>
    t._get_tree_statements max_depth depth verbose ++
      Tree.statementsList ts max_depth depth verbose

end

/-- `Tree.get_printable_tree`: the statements of the whole tree starting at
depth 1, joined with newlines. -/
def Tree.get_printable_tree (t : Tree) (max_depth : Option Int) (verbose : Bool) : String :=
  String.intercalate "\n" (t._get_tree_statements max_depth 1 verbose)

/-- One analyzed sentence (`library/document.py`, class `Sentence`). -/
structure Sentence : Type where
  content : String
  root : Tree

/-- An analyzed document (`library/document.py`, class `Document`). -/
structure Document : Type where
  language : String
  sentences : List Sentence

/-- The duck-typed `doc_or_sentence` argument of the matchers: a `Document`,
a `Sentence`, or any other value (`invalid`), on which the matchers raise
`TypeError('doc_or_sentence')`. -/
inductive Source : Type where
  | doc (d : Document)
  | sent (s : Sentence)
  | invalid

/-- A matched (left dependent, head, right dependent) node triple. -/
abbrev Triple := Tree × Tree × Tree

mutual

/-- Structural size of a tree, used only to drive induction over the nested
inductive `Tree` in proofs. -/
def Tree.size : Tree → Nat
  | .node _ _ _ _ _ _ _ cs => 1 + Tree.sizeList cs

/-- Structural size of a list of trees. -/
def Tree.sizeList : List Tree → Nat
  | [] => 0
  | t :: ts => Tree.size t + Tree.sizeList ts

end

/-- The `for child in node.children` classification loop of
`find_generic_triples` (`library/operations.py`): a child whose label equals
`left_label` goes to `left_deps`; otherwise (`elif`) a child whose label
equals `right_label` goes to `right_deps`; other children are dropped.
Returns `(left_deps, right_deps)` in child order. -/
def partitionDeps (left_label right_label : Nat) : List Tree → List Tree × List Tree
  | [] => ([], [])
  | child :: rest =>
    let (ls, rs) := partitionDeps left_label right_label rest
    if child.label = left_label then (child :: ls, rs)
    else if child.label = right_label then (ls, child :: rs)
    else (ls, rs)

/-- The nested `for left_dep in left_deps: for right_dep in right_deps`
yield loop of `find_generic_triples`. -/
def tripleCross (left_deps : List Tree) (node : Tree) (right_deps : List Tree) : List Triple :=
  left_deps.flatMap (fun left_dep => right_deps.map (fun right_dep => (left_dep, node, right_dep)))

/-- Triples contributed by one sentence in `find_generic_triples`: walk all
nodes, skip those whose `pos_tag` differs from `head_pos_tag`, and emit the
cross product of the partitioned children. -/
def sentenceTriples (sentence : Sentence) (left_label head_pos_tag right_label : Nat) : List Triple :=
  sentence.root.walk.flatMap (fun node =>
    if node.pos_tag = head_pos_tag then
      let deps := partitionDeps left_label right_label node.children
      tripleCross deps.1 node deps.2
    else [])

/-- Triples of `find_generic_triples` over a list of sentences. -/
def genericList (sentences : List Sentence) (left_label head_pos_tag right_label : Nat) : List Triple :=
  sentences.flatMap (fun s => sentenceTriples s left_label head_pos_tag right_label)

/-- `find_generic_triples` (`library/operations.py`): dispatch on the
`doc_or_sentence` argument (a `Document` contributes its sentences, a
`Sentence` itself, anything else raises `TypeError('doc_or_sentence')`),
then yield the per-sentence triples. -/
def find_generic_triples (doc_or_sentence : Source) (left_label head_pos_tag right_label : Nat) :
    Except String (List Triple) :=
  match doc_or_sentence with
  | .doc d => .ok (genericList d.sentences left_label head_pos_tag right_label)
  | .sent s => .ok (genericList [s] left_label head_pos_tag right_label)
  | .invalid => .error "doc_or_sentence"

/-- `itertools.product(left_labels, head_pos_tags, right_labels)`:
`left_labels` outermost, `head_pos_tags` middle, `right_labels` innermost. -/
def itertools_product3 (left_labels head_pos_tags right_labels : List Nat) :
    List (Nat × Nat × Nat) :=
  left_labels.flatMap (fun left => head_pos_tags.flatMap (fun head =>
    right_labels.map (fun right => (left, head, right))))

/-- `find_generic_triples_multi_criteria` (`library/operations.py`): for each
combination of the cross product invoke `find_generic_triples` and yield its
results in full before the next combination; an exception raised by the inner
generator aborts the iteration. -/
def find_generic_triples_multi_criteria (doc_or_sentence : Source)
    (left_labels head_pos_tags right_labels : List Nat) : Except String (List Triple) :=
  (itertools_product3 left_labels head_pos_tags right_labels).foldlM
    (fun acc c =>
      (find_generic_triples doc_or_sentence c.1 c.2.1 c.2.2).map (fun ts => acc ++ ts))
    []

/-- `find_verb_triples` (`providers/google_cloud.py`): if `active_voice`,
yield the multi-criteria triples for `([NSUBJ], [VERB], [DOBJ, PREP])` in
full; then, if `passive_voice`, those for `([NSUBJPASS], [VERB],
[POBJ, PREP])`. -/
def find_verb_triples (doc_or_sentence : Source) (active_voice passive_voice : Bool) :
    Except String (List Triple) := do
  let active ← if active_voice then
      find_generic_triples_multi_criteria doc_or_sentence
        [Label.NSUBJ] [Tag.VERB] [Label.DOBJ, Label.PREP]
    else pure []
  let passive ← if passive_voice then
      find_generic_triples_multi_criteria doc_or_sentence
        [Label.NSUBJPASS] [Tag.VERB] [Label.POBJ, Label.PREP]
    else pure []
  pure (active ++ passive)

/-- `verb_filter` (`providers/google_cloud.py`): accepts exactly the nodes
whose part-of-speech tag is `VERB`. -/
def verb_filter (_tree current_node : Tree) : Bool :=
  if current_node.pos_tag = Tag.VERB then true else false

/-- One token record of the analyzer response.  The nested Python accesses
`token.text.content`, `token.lemma`, `token.part_of_speech.tag`,
`token.dependency_edge.head_token_index` and `token.dependency_edge.label`
are flattened into fields. -/
structure Token : Type where
  content : String
  lem : String
  pos_tag : Nat
  head_token_index : Nat
  label : Nat

/-- Placeholder token returned by out-of-range list indexing; the spec
declares out-of-range head indices a precondition violation. -/
def dummyToken : Token := ⟨"", "", 0, 0, 0⟩

/-- `_create_tree(token_index, all_tokens)` (`providers/google_cloud.py`)
with an explicit recursion-depth budget `fuel` standing for Python's
unbounded recursion: build the node for `all_tokens[token_index]` and one
child for every enumerated token that is not `ROOT`-labeled and whose
`head_token_index` equals `token_index`, each child built recursively the
same way.  When the budget is exhausted the children are cut off; a budget
of `all_tokens.length` is proved sufficient on well-formed input. -/
def _create_tree : Nat → Nat → List Token → Tree
  | 0, token_index, all_tokens =>
    let token := all_tokens.getD token_index dummyToken
    .node token_index token.label token.content token.lem token.pos_tag none none []
  | fuel + 1, token_index, all_tokens =>
    let token := all_tokens.getD token_index dummyToken
    .node token_index token.label token.content token.lem token.pos_tag none none
      ((all_tokens.enum.filter (fun it =>
          (it.2.label != Label.ROOT) && (it.2.head_token_index == token_index))).map
        (fun it => _create_tree fuel it.1 all_tokens))

/-- Tree construction entry point: `_create_tree` with the canonical fuel
`tokens.length`. -/
def build (root_index : Nat) (tokens : List Token) : Tree :=
  _create_tree tokens.length root_index tokens

/-- Indices of the `ROOT`-labeled tokens, in token order
(`sentence_root_indices` in `create_nlst_document_from_response`). -/
def root_token_indices (tokens : List Token) : List Nat :=
  (tokens.enum.filter (fun it => it.2.label == Label.ROOT)).map Prod.fst

/-- The analyzer response consumed by document assembly: a language code,
the sentence texts (`sentence.text.content`), and the flat token list. -/
structure Response : Type where
  language : String
  sentences : List String
  tokens : List Token

/-- `create_nlst_document_from_response` (`providers/google_cloud.py`): one
`Sentence` per `zip`-pair of a sentence text and a `ROOT` token index, its
tree built from that index over the whole token list. -/
def create_nlst_document_from_response (response : Response) : Document :=
  { language := response.language
    sentences := (response.sentences.zip (root_token_indices response.tokens)).map
      (fun p => { content := p.1, root := build p.2 response.tokens }) }

/-! Specification-side definitions.  Each follows the wording of spec.md (or
of a claim) and exists to be compared with the definitions above, which are
translated from the source. -/

/-- Spec-side (§4.3): `left_deps`, the direct children whose label equals
`left_label`, in child order. -/
def specLeftDeps (children : List Tree) (left_label : Nat) : List Tree :=
  children.filter (fun c => c.label == left_label)

/-- Spec-side (§4.3): `right_deps`, the direct children the partition assigns
to the right class: label equals `right_label` and the child was not already
taken by the left class, in child order. -/
def specRightDeps (children : List Tree) (left_label right_label : Nat) : List Tree :=
  children.filter (fun c => (c.label != left_label) && (c.label == right_label))

/-- Spec-side (§4.3): triples of one sentence — pre-order walk, keep heads
with the requested `pos_tag`, and the full cross product with `l` the outer
loop and `r` the inner loop. -/
def specSentenceTriples (sentence : Sentence) (left_label head_pos_tag right_label : Nat) :
    List Triple :=
  sentence.root.walk.flatMap (fun head =>
    if head.pos_tag = head_pos_tag then
      (specLeftDeps head.children left_label).flatMap (fun l =>
        (specRightDeps head.children left_label right_label).map (fun r => (l, head, r)))
    else [])

/-- Spec-side (§4.3): triples of the generic matcher, sentence by sentence in
document order. -/
def specFindTriples (sentences : List Sentence) (left_label head_pos_tag right_label : Nat) :
    List Triple :=
  sentences.flatMap (fun s => specSentenceTriples s left_label head_pos_tag right_label)

/-- Spec-side (§4.1, claim C4): `build(root_index, tokens)` constructs the
node for `tokens[root_index]` and one child for every OTHER token whose
`head_index` equals `root_index`, in input order, children built recursively
the same way; with the same fuel convention as `_create_tree`. -/
def buildSpec : Nat → Nat → List Token → Tree
  | 0, root_index, tokens =>
    let token := tokens.getD root_index dummyToken
    .node root_index token.label token.content token.lem token.pos_tag none none []
  | fuel + 1, root_index, tokens =>
    let token := tokens.getD root_index dummyToken
    .node root_index token.label token.content token.lem token.pos_tag none none
      ((tokens.enum.filter (fun it =>
          (it.1 != root_index) && (it.2.head_token_index == root_index))).map
        (fun it => buildSpec fuel it.1 tokens))

/-- Spec-side (§6, amended claim C8): the line prefix of a node at `depth` —
nothing at depth 1, `'|- '` at depth 2, and `'   '` repeated `(depth-2)`
times followed by `'|- '` below that. -/
def specLead (depth : Nat) : String :=
  if depth = 1 then "" else if depth = 2 then "|- " else strRepeat "   " (depth - 2) ++ "|- "

mutual

/-- Spec-side (§6, amended claim C8): the lines of the printable tree, in
pre-order, each the node's prefix followed by its string representation. -/
def specLines : Tree → Nat → Bool → List String
  | .node i l c lm p pm lbm cs, depth, verbose =>
    (specLead depth ++ (Tree.node i l c lm p pm lbm cs).get_string_repr verbose) ::
      specLinesList cs depth verbose

/-- Spec-side helper: lines of the children, each one level deeper. -/
def specLinesList : List Tree → Nat → Bool → List String
  | [], _, _ => []
  | t :: ts, depth, verbose =>
    specLines t (depth + 1) verbose ++ specLinesList ts depth verbose

end

/-- Claim-side (literal claim C8): the prefix read verbatim from the claim,
`'|- '` followed by `'   '` repeated `(depth-2)` times for depth > 2. -/
def claimLead (depth : Nat) : String :=
  if depth = 1 then "" else if depth = 2 then "|- " else "|- " ++ strRepeat "   " (depth - 2)

mutual

/-- Claim-side (literal claim C8): lines with the claim's literal prefix. -/
def claimLines : Tree → Nat → Bool → List String
  | .node i l c lm p pm lbm cs, depth, verbose =>
    (claimLead depth ++ (Tree.node i l c lm p pm lbm cs).get_string_repr verbose) ::
      claimLinesList cs depth verbose

/-- Claim-side helper: lines of the children, each one level deeper. -/
def claimLinesList : List Tree → Nat → Bool → List String
  | [], _, _ => []
  | t :: ts, depth, verbose =>
    claimLines t (depth + 1) verbose ++ claimLinesList ts depth verbose

end

/-! Analysis-side definitions about the token array, used to state and prove
well-formedness of `_create_tree`'s input. -/

/-- The token at index `j`, with the placeholder for out-of-range access. -/
def tokAt (tokens : List Token) (j : Nat) : Token :=
  tokens.getD j dummyToken

/-- Indices of the children `_create_tree` attaches to the node of index `i`:
the enumerated tokens that are not `ROOT`-labeled and whose head is `i`. -/
def childIdx (tokens : List Token) (i : Nat) : List Nat :=
  (tokens.enum.filter (fun it =>
    (it.2.label != Label.ROOT) && (it.2.head_token_index == i))).map Prod.fst

/-- Token `c` is a (direct) child of token `i` in the head-indexed array. -/
def isChild (tokens : List Token) (c i : Nat) : Prop :=
  c < tokens.length ∧ (tokAt tokens c).label ≠ Label.ROOT ∧
    (tokAt tokens c).head_token_index = i

/-- Token `j` lies in the subtree of token `i` of the head-indexed array:
either `j = i`, or `j` lies in the subtree of a child of `i`. -/
inductive Desc (tokens : List Token) : Nat → Nat → Prop where
  | refl (i : Nat) : Desc tokens i i
  | step {i c j : Nat} : isChild tokens c i → Desc tokens c j → Desc tokens i j

/-- A well-formed single-sentence token array: `root` is in range and is the
unique `ROOT`-labeled token, and the depth function `d` certifies that the
head references form a tree rooted at `root` (every other token's head is in
range and one level shallower), with all depths below the array length. -/
structure WellFormed (tokens : List Token) (root : Nat) (d : Nat → Nat) : Prop where
  root_lt : root < tokens.length
  root_label : (tokAt tokens root).label = Label.ROOT
  step : ∀ j, j < tokens.length → j ≠ root →
    (tokAt tokens j).label ≠ Label.ROOT ∧
      (tokAt tokens j).head_token_index < tokens.length ∧
      d j = d ((tokAt tokens j).head_token_index) + 1
  depth_lt : ∀ j, j < tokens.length → d j < tokens.length

/-! Concrete data used by witnesses and counterexamples. -/

/-- A childless tree node. -/
def exLeaf : Tree := .node 0 0 "a" "a" 0 none none []

/-- A three-node chain `a → b → c` reaching depth 3. -/
def exChain : Tree :=
  .node 0 0 "a" "a" 0 none none [.node 1 1 "b" "b" 0 none none [.node 2 2 "c" "c" 0 none none []]]

/-- A sentence over the single leaf node. -/
def exSentence : Sentence := ⟨"a", exLeaf⟩

/-- A one-sentence document. -/
def exDocument : Document := ⟨"en", [exSentence]⟩

/-- A well-formed three-token array: token 0 is the `ROOT`-labeled sentinel
(head = its own index), token 1 hangs off token 0, token 2 off token 1. -/
def exToks : List Token :=
  [⟨"chased", "chase", Tag.VERB, 0, Label.ROOT⟩,
   ⟨"cat", "cat", 6, 0, Label.NSUBJ⟩,
   ⟨"mouse", "mouse", 6, 1, Label.DOBJ⟩]

/-! Helper lemmas. -/

theorem Tree.walkList_eq (ts : List Tree) : Tree.walkList ts = ts.flatMap Tree.walk := by
  induction ts with
  | nil => rfl
  | cons t ts ih => simp [Tree.walkList, ih]

theorem Tree.walk_eq (t : Tree) : t.walk = t :: t.children.flatMap Tree.walk := by
  cases t with
  | node i l c lm p pm lbm cs => simp [Tree.walk, Tree.children, Tree.walkList_eq]

theorem enum_eq_range_map {α : Type} (l : List α) (dflt : α) :
    l.enum = (List.range l.length).map (fun i => (i, l.getD i dflt)) := by
  apply List.ext_getElem
  · simp
  · intro n h₁ h₂
    have hn : n < l.length := by simpa using h₁
    rw [List.getElem_enum, List.getElem_map, List.getElem_range,
      List.getD_eq_getElem l dflt hn]

theorem enum_filter_map_fst {α : Type} (p : Nat × α → Bool) (l : List α) (dflt : α) :
    (l.enum.filter p).map Prod.fst =
      (List.range l.length).filter (fun i => p (i, l.getD i dflt)) := by
  rw [enum_eq_range_map l dflt, List.filter_map, List.map_map]
  simp [Function.comp_def]

theorem mem_enum_iff {α : Type} (dflt : α) {l : List α} {it : Nat × α} :
    it ∈ l.enum ↔ it.1 < l.length ∧ it.2 = l.getD it.1 dflt := by
  rw [enum_eq_range_map l dflt]
  constructor
  · intro h
    rcases List.mem_map.mp h with ⟨i, hi, hit⟩
    cases hit
    exact ⟨List.mem_range.mp hi, rfl⟩
  · intro ⟨h1, h2⟩
    refine List.mem_map.mpr ⟨it.1, List.mem_range.mpr h1, ?_⟩
    cases it
    simp_all

theorem childIdx_eq (tokens : List Token) (i : Nat) :
    childIdx tokens i = (List.range tokens.length).filter (fun j =>
      ((tokAt tokens j).label != Label.ROOT) && ((tokAt tokens j).head_token_index == i)) :=
  enum_filter_map_fst _ _ dummyToken

theorem mem_childIdx {tokens : List Token} {i j : Nat} :
    j ∈ childIdx tokens i ↔ isChild tokens j i := by
  rw [childIdx_eq, isChild]
  simp [List.mem_filter, bne_iff_ne]

theorem childIdx_nodup (tokens : List Token) (i : Nat) : (childIdx tokens i).Nodup := by
  rw [childIdx_eq]
  exact (List.nodup_range _).filter _

theorem partitionDeps_eq (left_label right_label : Nat) (cs : List Tree) :
    partitionDeps left_label right_label cs =
      (specLeftDeps cs left_label, specRightDeps cs left_label right_label) := by
  induction cs with
  | nil => rfl
  | cons c rest ih =>
    simp only [partitionDeps, ih, specLeftDeps, specRightDeps, List.filter_cons]
    by_cases h₁ : c.label = left_label
    · simp [h₁]
    · by_cases h₂ : c.label = right_label
      · have h₃ : right_label ≠ left_label := fun h => h₁ (h₂.trans h)
        simp [h₁, h₂, h₃]
      · simp [h₁, h₂]

theorem exceptMap_ok {ε α β : Type} (f : α → β) (x : α) :
    (Except.ok x : Except ε α).map f = .ok (f x) := rfl

theorem exceptMap_error {ε α β : Type} (f : α → β) (e : ε) :
    (Except.error e : Except ε α).map f = .error e := rfl

theorem exceptBind_ok {ε α β : Type} (x : α) (f : α → Except ε β) :
    (Except.ok x : Except ε α) >>= f = f x := rfl

theorem exceptBind_error {ε α β : Type} (e : ε) (f : α → Except ε β) :
    (Except.error e : Except ε α) >>= f = .error e := rfl

theorem sentenceTriples_eq_spec (s : Sentence) (L P R : Nat) :
    sentenceTriples s L P R = specSentenceTriples s L P R := by
  unfold sentenceTriples specSentenceTriples
  apply List.flatMap_congr
  intro node _
  by_cases h : node.pos_tag = P
  · simp [h, partitionDeps_eq, tripleCross]
  · simp [h]

theorem genericList_eq_spec (ss : List Sentence) (L P R : Nat) :
    genericList ss L P R = specFindTriples ss L P R :=
  List.flatMap_congr fun s _ => sentenceTriples_eq_spec s L P R

theorem specRightDeps_same (cs : List Tree) (L : Nat) : specRightDeps cs L L = [] := by
  apply List.filter_eq_nil_iff.mpr
  intro c _
  by_cases h : c.label = L <;> simp [specRightDeps, h]

theorem sentenceTriples_same_label (s : Sentence) (L P : Nat) :
    sentenceTriples s L P L = [] := by
  rw [sentenceTriples_eq_spec]
  apply List.flatMap_eq_nil_iff.mpr
  intro head _
  by_cases h : head.pos_tag = P <;> simp [specSentenceTriples, h, specRightDeps_same]

theorem genericList_same_label (ss : List Sentence) (L P : Nat) :
    genericList ss L P L = [] :=
  List.flatMap_eq_nil_iff.mpr fun s _ => sentenceTriples_same_label s L P

theorem foldlM_triples_ok {α : Type} (F : α → Except String (List Triple))
    (g : α → List Triple) (l : List α) (h : ∀ c ∈ l, F c = .ok (g c)) (acc : List Triple) :
    l.foldlM (fun a c => (F c).map (fun ts => a ++ ts)) acc = .ok (acc ++ l.flatMap g) := by
  induction l generalizing acc with
  | nil =>
    rw [List.foldlM_nil]
    show Except.ok acc = _
    simp
  | cons c cs ih =>
    rw [List.foldlM_cons, h c (List.mem_cons_self c cs), exceptMap_ok, exceptBind_ok,
      ih (fun x hx => h x (List.mem_cons_of_mem _ hx))]
    simp [List.append_assoc]

theorem foldlM_triples_error {α : Type} (F : α → Except String (List Triple)) (e : String)
    (c : α) (cs : List α) (h : F c = .error e) (acc : List Triple) :
    (c :: cs).foldlM (fun a x => (F x).map (fun ts => a ++ ts)) acc = .error e := by
  rw [List.foldlM_cons, h, exceptMap_error, exceptBind_error]

theorem multi_sent (s : Sentence) (Ls Ps Rs : List Nat) :
    find_generic_triples_multi_criteria (.sent s) Ls Ps Rs =
      .ok ((itertools_product3 Ls Ps Rs).flatMap (fun c => genericList [s] c.1 c.2.1 c.2.2)) := by
  unfold find_generic_triples_multi_criteria
  exact (foldlM_triples_ok
    (fun (c : Nat × Nat × Nat) => find_generic_triples (.sent s) c.1 c.2.1 c.2.2)
    (fun (c : Nat × Nat × Nat) => genericList [s] c.1 c.2.1 c.2.2)
    _ (fun c _ => rfl) []).trans (by simp)

theorem multi_doc (d : Document) (Ls Ps Rs : List Nat) :
    find_generic_triples_multi_criteria (.doc d) Ls Ps Rs =
      .ok ((itertools_product3 Ls Ps Rs).flatMap
        (fun c => genericList d.sentences c.1 c.2.1 c.2.2)) := by
  unfold find_generic_triples_multi_criteria
  exact (foldlM_triples_ok
    (fun (c : Nat × Nat × Nat) => find_generic_triples (.doc d) c.1 c.2.1 c.2.2)
    (fun (c : Nat × Nat × Nat) => genericList d.sentences c.1 c.2.1 c.2.2)
    _ (fun c _ => rfl) []).trans (by simp)

/-! Claim theorems. -/

/-- C1: for every Sentence or Document source, `find_generic_triples` yields,
for each sentence in document order and each pre-order-visited head with the
requested `pos_tag`, the full cross product of the head's partitioned direct
children, left dependents as the outer loop; and if no node matches
`head_pos_tag` the result is empty. -/
theorem C1_generic_matcher (s : Sentence) (d : Document)
    (left_label head_pos_tag right_label : Nat) :
    find_generic_triples (.sent s) left_label head_pos_tag right_label =
      .ok (specFindTriples [s] left_label head_pos_tag right_label) ∧
    find_generic_triples (.doc d) left_label head_pos_tag right_label =
      .ok (specFindTriples d.sentences left_label head_pos_tag right_label) ∧
    ((∀ n ∈ s.root.walk, n.pos_tag ≠ head_pos_tag) →
      find_generic_triples (.sent s) left_label head_pos_tag right_label = .ok []) := by
  refine ⟨?_, ?_, ?_⟩
  · show Except.ok (genericList [s] left_label head_pos_tag right_label) = _
    rw [genericList_eq_spec]
  · show Except.ok (genericList d.sentences left_label head_pos_tag right_label) = _
    rw [genericList_eq_spec]
  · intro h
    show Except.ok (genericList [s] left_label head_pos_tag right_label) = _
    have hs : sentenceTriples s left_label head_pos_tag right_label = [] := by
      apply List.flatMap_eq_nil_iff.mpr
      intro n hn
      simp [h n hn]
    simp [genericList, hs]

/-- C1 witness: on a concrete one-node sentence with no matching head the
matcher returns the empty triple list. -/
theorem C1_generic_matcher_witness :
    find_generic_triples (.sent exSentence) 1 2 3 = .ok [] := by
  apply (C1_generic_matcher exSentence exDocument 1 2 3).2.2
  intro n hn
  simp only [exSentence, exLeaf, Tree.walk, Tree.walkList, List.mem_singleton] at hn
  subst hn
  decide

/-- C2: with singleton criteria sets the multi-criteria matcher coincides
with the generic matcher, and in general it yields, for each combination of
the Cartesian product (left labels outermost, head tags middle, right labels
innermost), the full generic-matcher output of that combination in order. -/
theorem C2_multi_criteria (src : Source) (L P R : Nat) (Ls Ps Rs : List Nat)
    (s : Sentence) (d : Document) :
    find_generic_triples_multi_criteria src [L] [P] [R] =
      find_generic_triples src L P R ∧
    find_generic_triples_multi_criteria (.sent s) Ls Ps Rs =
      .ok ((itertools_product3 Ls Ps Rs).flatMap
        (fun c => genericList [s] c.1 c.2.1 c.2.2)) ∧
    find_generic_triples_multi_criteria (.doc d) Ls Ps Rs =
      .ok ((itertools_product3 Ls Ps Rs).flatMap
        (fun c => genericList d.sentences c.1 c.2.1 c.2.2)) := by
  refine ⟨?_, multi_sent s Ls Ps Rs, multi_doc d Ls Ps Rs⟩
  cases src with
  | sent s' => rw [multi_sent]; simp [itertools_product3, find_generic_triples]
  | doc d' => rw [multi_doc]; simp [itertools_product3, find_generic_triples]
  | invalid => rfl

/-- C9: with identical left and right labels the generic matcher yields the
empty sequence, because the `elif` partition places every matching child in
the left class only. -/
theorem C9_same_label (s : Sentence) (d : Document) (L P : Nat) :
    find_generic_triples (.sent s) L P L = .ok [] ∧
    find_generic_triples (.doc d) L P L = .ok [] := by
  constructor
  · show Except.ok (genericList [s] L P L) = _
    rw [genericList_same_label]
  · show Except.ok (genericList d.sentences L P L) = _
    rw [genericList_same_label]

/-- C3: the both-voices run of `find_verb_triples` equals the active-only run
followed by the passive-only run (payload concatenation in the Except
monad); the no-voice run yields nothing; and the single-voice runs are
exactly the corresponding multi-criteria calls with labels
`[NSUBJ]/[VERB]/[DOBJ, PREP]` (active) and `[NSUBJPASS]/[VERB]/[POBJ, PREP]`
(passive). -/
theorem C3_voice_composition (src : Source) :
    find_verb_triples src true true = (do
      let act ← find_verb_triples src true false
      let pas ← find_verb_triples src false true
      pure (act ++ pas)) ∧
    find_verb_triples src false false = .ok [] ∧
    find_verb_triples src true false =
      find_generic_triples_multi_criteria src
        [Label.NSUBJ] [Tag.VERB] [Label.DOBJ, Label.PREP] ∧
    find_verb_triples src false true =
      find_generic_triples_multi_criteria src
        [Label.NSUBJPASS] [Tag.VERB] [Label.POBJ, Label.PREP] := by
  cases src with
  | invalid => exact ⟨rfl, rfl, rfl, rfl⟩
  | sent s =>
    have hA := multi_sent s [Label.NSUBJ] [Tag.VERB] [Label.DOBJ, Label.PREP]
    have hP := multi_sent s [Label.NSUBJPASS] [Tag.VERB] [Label.POBJ, Label.PREP]
    refine ⟨?_, rfl, ?_, ?_⟩ <;> simp [find_verb_triples, hA, hP, exceptBind_ok]
  | doc d =>
    have hA := multi_doc d [Label.NSUBJ] [Tag.VERB] [Label.DOBJ, Label.PREP]
    have hP := multi_doc d [Label.NSUBJPASS] [Tag.VERB] [Label.POBJ, Label.PREP]
    refine ⟨?_, rfl, ?_, ?_⟩ <;> simp [find_verb_triples, hA, hP, exceptBind_ok]

/-- C6 (amended): an invalid source makes `find_generic_triples` signal
`TypeError('doc_or_sentence')` with no triples yielded; the derived matchers
signal it exactly when they invoke the generic matcher at all — the
multi-criteria matcher when its criteria cross product is nonempty, the verb
extractor when at least one voice flag is set — while an empty cross product
or two false flags yield nothing and signal nothing. -/
theorem C6_invalid_source (L P R : Nat) (Ls Ps Rs : List Nat) (a p : Bool)
    (hLs : Ls ≠ []) (hPs : Ps ≠ []) (hRs : Rs ≠ []) (hv : a = true ∨ p = true) :
    find_generic_triples Source.invalid L P R = .error "doc_or_sentence" ∧
    find_generic_triples_multi_criteria Source.invalid Ls Ps Rs =
      .error "doc_or_sentence" ∧
    find_verb_triples Source.invalid a p = .error "doc_or_sentence" ∧
    find_verb_triples Source.invalid false false = .ok [] := by
  obtain ⟨l0, Ls', rfl⟩ := List.exists_cons_of_ne_nil hLs
  obtain ⟨p0, Ps', rfl⟩ := List.exists_cons_of_ne_nil hPs
  obtain ⟨r0, Rs', rfl⟩ := List.exists_cons_of_ne_nil hRs
  refine ⟨rfl, rfl, ?_, rfl⟩
  rcases hv with ha | hp
  · subst ha; rfl
  · subst hp; cases a <;> rfl

/-- C6 witness: concrete singleton criteria over the invalid source produce
the error. -/
theorem C6_invalid_source_witness :
    find_generic_triples_multi_criteria Source.invalid [1] [2] [3] =
      .error "doc_or_sentence" :=
  (C6_invalid_source 1 2 3 [1] [2] [3] true true (by decide) (by decide) (by decide)
    (Or.inl rfl)).2.1

/-- C6 counterexample: with empty criteria lists the multi-criteria matcher
never invokes the generic matcher, so the invalid source yields an empty
result and no `InvalidArgument` error is signalled, contradicting the claim
that every matcher signals the error for every invalid input. -/
theorem C6_counterexample :
    find_generic_triples_multi_criteria Source.invalid [] [] [] = .ok [] ∧
    ∀ e, find_generic_triples_multi_criteria Source.invalid [] [] [] ≠ .error e :=
  ⟨rfl, fun _ h => Except.noConfusion h⟩

/-- C4: under the root-sentinel convention (a token's head is its own index
exactly when it is the `ROOT`-labeled token), `_create_tree` builds, at
every index and every recursion budget, exactly the tree described by the
claim: one child per OTHER token whose head index equals the current index,
in input order, children built recursively the same way. -/
theorem C4_tree_builder (tokens : List Token)
    (hconv : ∀ j, j < tokens.length →
      ((tokAt tokens j).head_token_index = j ↔ (tokAt tokens j).label = Label.ROOT)) :
    ∀ fuel root_index, _create_tree fuel root_index tokens = buildSpec fuel root_index tokens := by
  intro fuel
  induction fuel with
  | zero => intro i; rfl
  | succ fuel ih =>
    intro i
    simp only [_create_tree, buildSpec, Tree.node.injEq, true_and]
    have hfil : tokens.enum.filter
        (fun it => (it.2.label != Label.ROOT) && (it.2.head_token_index == i)) =
        tokens.enum.filter (fun it => (it.1 != i) && (it.2.head_token_index == i)) := by
      apply List.filter_congr
      intro it hit
      obtain ⟨hlt, hsnd⟩ := (mem_enum_iff dummyToken).mp hit
      have hsnd' : it.2 = tokAt tokens it.1 := hsnd
      rw [hsnd']
      by_cases hh : (tokAt tokens it.1).head_token_index = i
      · have h1 : ((tokAt tokens it.1).head_token_index == i) = true := by
          rw [hh]; exact beq_self_eq_true i
        rw [h1, Bool.and_true, Bool.and_true]
        by_cases hr : (tokAt tokens it.1).label = Label.ROOT
        · have hie : i = it.1 := by rw [← hh]; exact (hconv it.1 hlt).mpr hr
          have e1 : ((tokAt tokens it.1).label != Label.ROOT) = false := by
            rw [hr]; exact bne_self_eq_false _
          have e2 : (it.1 != i) = false := by rw [hie]; exact bne_self_eq_false _
          rw [e1, e2]
        · have hne : it.1 ≠ i := fun h => hr ((hconv it.1 hlt).mp (h.symm ▸ hh))
          have e1 : ((tokAt tokens it.1).label != Label.ROOT) = true := bne_iff_ne.mpr hr
          have e2 : (it.1 != i) = true := bne_iff_ne.mpr hne
          rw [e1, e2]
      · have h1 : ((tokAt tokens it.1).head_token_index == i) = false :=
          beq_eq_false_iff_ne.mpr hh
        rw [h1, Bool.and_false, Bool.and_false]
    rw [hfil]
    apply List.map_congr_left
    intro it _
    rw [ih it.1]

/-- C4 witness: the builder and the claim-side builder agree on the concrete
three-token array, which satisfies the sentinel convention. -/
theorem C4_tree_builder_witness :
    _create_tree 3 0 exToks = buildSpec 3 0 exToks :=
  C4_tree_builder exToks (by decide) 3 0

theorem size_le_sizeList {c : Tree} {cs : List Tree} (h : c ∈ cs) :
    Tree.size c ≤ Tree.sizeList cs := by
  induction cs with
  | nil => cases h
  | cons t ts ih =>
    rw [Tree.sizeList]
    rcases List.mem_cons.mp h with rfl | h'
    · exact Nat.le_add_right _ _
    · exact le_trans (ih h') (Nat.le_add_left _ _)

theorem size_lt_node {c : Tree} {i l : Nat} {ct lm : String} {p : Nat}
    {pm lbm : Option (Nat → String)} {cs : List Tree} (h : c ∈ cs) :
    Tree.size c < Tree.size (.node i l ct lm p pm lbm cs) := by
  rw [Tree.size]
  have := size_le_sizeList h
  omega

theorem statementsList_eq_specLinesList (cs : List Tree) (md : Option Int) (dp : Nat)
    (v : Bool) (h : ∀ c ∈ cs, c._get_tree_statements md (dp + 1) v = specLines c (dp + 1) v) :
    Tree.statementsList cs md (dp + 1) v = specLinesList cs dp v := by
  induction cs with
  | nil => rfl
  | cons t ts ih =>
    rw [Tree.statementsList, specLinesList, h t (List.mem_cons_self t ts),
      ih (fun c hc => h c (List.mem_cons_of_mem _ hc))]

theorem statementsList_congr (cs : List Tree) (md md' : Option Int) (dp : Nat) (v : Bool)
    (h : ∀ c ∈ cs, c._get_tree_statements md dp v = c._get_tree_statements md' dp v) :
    Tree.statementsList cs md dp v = Tree.statementsList cs md' dp v := by
  induction cs with
  | nil => rfl
  | cons t ts ih =>
    rw [Tree.statementsList, Tree.statementsList, h t (List.mem_cons_self t ts),
      ih (fun c hc => h c (List.mem_cons_of_mem _ hc))]

theorem lead_eq (dp : Nat) :
    ((if dp ≤ 2 then "" else strRepeat "   " (dp - 2)) ++ (if dp = 1 then "" else "|- ")) =
      specLead dp := by
  match dp with
  | 0 => rfl
  | 1 => rfl
  | 2 => rfl
  | (d + 3) =>
    have h1 : ¬(d + 3 ≤ 2) := by omega
    have h2 : ¬(d + 3 = 1) := by omega
    have h3 : ¬(d + 3 = 2) := by omega
    rw [specLead, if_neg h1, if_neg h2, if_neg h2, if_neg h3]

theorem stmts_none_eq_specLines : ∀ n t, Tree.size t ≤ n → ∀ dp v,
    Tree._get_tree_statements t none dp v = specLines t dp v := by
  intro n
  induction n using Nat.strong_induction_on with
  | _ n ih =>
    intro t hsz dp v
    cases t with
    | node i l c lm p pm lbm cs =>
      rw [Tree._get_tree_statements, specLines, if_neg (by simp)]
      have hlead := lead_eq dp
      rw [hlead]
      have hrest : Tree.statementsList cs ((none : Option Int).map (· - 1)) (dp + 1) v =
          specLinesList cs dp v := by
        apply statementsList_eq_specLinesList
        intro ch hc
        exact ih (Tree.size ch) (lt_of_lt_of_le (size_lt_node hc) hsz) ch le_rfl (dp + 1) v
      rw [hrest]

theorem stmts_neg_eq_none : ∀ n t, Tree.size t ≤ n → ∀ (m : Int), m < 0 → ∀ dp v,
    Tree._get_tree_statements t (some m) dp v = Tree._get_tree_statements t none dp v := by
  intro n
  induction n using Nat.strong_induction_on with
  | _ n ih =>
    intro t hsz m hm dp v
    cases t with
    | node i l c lm p pm lbm cs =>
      rw [Tree._get_tree_statements, Tree._get_tree_statements,
        if_neg (show ¬((some m : Option Int) = some 0) by simp; omega),
        if_neg (show ¬((none : Option Int) = some 0) by simp)]
      have hrest : Tree.statementsList cs ((some m : Option Int).map (· - 1)) (dp + 1) v =
          Tree.statementsList cs ((none : Option Int).map (· - 1)) (dp + 1) v := by
        apply statementsList_congr
        intro ch hc
        exact ih (Tree.size ch) (lt_of_lt_of_le (size_lt_node hc) hsz) ch le_rfl
          (m - 1) (by omega) (dp + 1) v
      rw [hrest]

theorem zip_getElem? {α β : Type} (l₁ : List α) (l₂ : List β) (k : Nat) :
    (l₁.zip l₂)[k]? = (l₁[k]?).bind (fun a => (l₂[k]?).map (fun b => (a, b))) := by
  induction l₁ generalizing l₂ k with
  | nil => simp
  | cons a as ih =>
    cases l₂ with
    | nil => simp
    | cons b bs =>
      cases k with
      | zero => simp [List.zip_cons_cons]
      | succ k => simp [List.zip_cons_cons, ih]

theorem root_token_indices_length (tokens : List Token) :
    (root_token_indices tokens).length = tokens.countP (fun t => t.label == Label.ROOT) := by
  rw [root_token_indices, List.length_map, ← List.countP_eq_length_filter,
    show (fun it : Nat × Token => it.2.label == Label.ROOT) =
      ((fun t => t.label == Label.ROOT) ∘ Prod.snd) from rfl,
    ← List.countP_map, List.enum_map_snd]

/-- C7: document assembly builds one `Sentence` per `zip`-pair of a sentence
text and a `ROOT`-token index, so the document has
`min(number of sentence texts, number of ROOT tokens)` sentences, the extra
elements of the longer sequence being silently dropped; the k-th sentence
pairs the k-th text with the tree built from the k-th `ROOT` index. -/
theorem C7_document_assembly (r : Response) :
    (create_nlst_document_from_response r).sentences.length =
      min r.sentences.length (r.tokens.countP (fun t => t.label == Label.ROOT)) ∧
    ∀ k : Nat, (create_nlst_document_from_response r).sentences[k]? =
      (r.sentences[k]?).bind (fun stext => ((root_token_indices r.tokens)[k]?).map
        (fun ri => Sentence.mk stext (build ri r.tokens))) := by
  constructor
  · simp only [create_nlst_document_from_response]
    rw [List.length_map, List.length_zip, root_token_indices_length]
  · intro k
    simp only [create_nlst_document_from_response]
    rw [List.getElem?_map, zip_getElem?]
    cases hs : r.sentences[k]? with
    | none => rfl
    | some stext =>
      cases hr : (root_token_indices r.tokens)[k]? with
      | none => rfl
      | some ri => rfl

/-- C8 (amended): with no maximum depth the printable tree is the pre-order
list of lines joined by single newlines, each line being `'   '` repeated
`(depth-2)` times followed by `'|- '` for depth > 2, `'|- '` alone at depth
2 and no prefix at depth 1, followed by the node's string representation. -/
theorem C8_printable_tree (t : Tree) (v : Bool) :
    Tree.get_printable_tree t none v = String.intercalate "\n" (specLines t 1 v) := by
  rw [Tree.get_printable_tree, stmts_none_eq_specLines (Tree.size t) t le_rfl 1 v]

/-- C8 counterexample: on a depth-3 chain the actual third line starts with
the indentation followed by `'|- '`, not with `'|- '` followed by the
indentation as the claim literally states, so the claimed rendering differs
from the real one. -/
theorem C8_counterexample :
    Tree.get_printable_tree exChain none false ≠
      String.intercalate "\n" (claimLines exChain 1 false) := by decide

/-- C10: a maximum depth of 0 renders the empty string, and any negative
maximum depth renders the full tree exactly like no maximum, since the
cutoff fires only when the remaining budget is exactly 0. -/
theorem C10_max_depth (t : Tree) (v : Bool) (m : Int) (hm : m < 0) :
    Tree.get_printable_tree t (some 0) v = "" ∧
    Tree.get_printable_tree t (some m) v = Tree.get_printable_tree t none v := by
  constructor
  · rw [Tree.get_printable_tree]
    cases t with
    | node i l c lm p pm lbm cs => rw [Tree._get_tree_statements, if_pos rfl]; rfl
  · rw [Tree.get_printable_tree, Tree.get_printable_tree,
      stmts_neg_eq_none (Tree.size t) t le_rfl m hm 1 v]

/-- C10 witness: concrete renderings at maximum depths 0 and -1. -/
theorem C10_max_depth_witness :
    Tree.get_printable_tree exLeaf (some 0) false = "" ∧
    Tree.get_printable_tree exLeaf (some (-1)) false =
      Tree.get_printable_tree exLeaf none false :=
  C10_max_depth exLeaf false (-1) (by decide)

theorem child_not_root {tokens : List Token} {root : Nat} {d : Nat → Nat}
    (hw : WellFormed tokens root d) {c i : Nat} (hc : isChild tokens c i) : c ≠ root :=
  fun h => hc.2.1 (by rw [h]; exact hw.root_label)

theorem child_depth {tokens : List Token} {root : Nat} {d : Nat → Nat}
    (hw : WellFormed tokens root d) {c i : Nat} (hc : isChild tokens c i) :
    d c = d i + 1 := by
  obtain ⟨hlt, hnr, hhead⟩ := hc
  have hcr : c ≠ root := child_not_root hw ⟨hlt, hnr, hhead⟩
  have hstep := (hw.step c hlt hcr).2.2
  rw [hhead] at hstep
  exact hstep

theorem desc_lt {tokens : List Token} {i j : Nat} (h : Desc tokens i j) :
    i < tokens.length → j < tokens.length := by
  induction h with
  | refl i => exact id
  | step hc _ ih => exact fun _ => ih hc.1

theorem desc_depth {tokens : List Token} {root : Nat} {d : Nat → Nat}
    (hw : WellFormed tokens root d) {i j : Nat} (h : Desc tokens i j) :
    i = j ∨ d i < d j := by
  induction h with
  | refl i => exact Or.inl rfl
  | step hc _ ih =>
    right
    have hdc := child_depth hw hc
    rcases ih with rfl | hlt
    · omega
    · omega

theorem desc_append {tokens : List Token} {a b : Nat} (h : Desc tokens a b) :
    ∀ c, isChild tokens c b → Desc tokens a c := by
  induction h with
  | refl a => exact fun c hc => Desc.step hc (Desc.refl c)
  | step hc' _ ih => exact fun c hc => Desc.step hc' (ih c hc)

theorem desc_up {tokens : List Token} {c j : Nat} (h : Desc tokens c j) :
    c = j ∨ (isChild tokens j ((tokAt tokens j).head_token_index) ∧
      Desc tokens c ((tokAt tokens j).head_token_index)) := by
  induction h with
  | refl c => exact Or.inl rfl
  | step hc' _ ih =>
    rcases ih with rfl | ⟨hj, hdesc⟩
    · refine Or.inr ⟨?_, ?_⟩
      · rw [hc'.2.2]; exact hc'
      · rw [hc'.2.2]; exact Desc.refl _
    · exact Or.inr ⟨hj, Desc.step hc' hdesc⟩

theorem desc_unique {tokens : List Token} {root : Nat} {d : Nat → Nat}
    (hw : WellFormed tokens root d) :
    ∀ m j c₁ c₂ i, d j = m → isChild tokens c₁ i → isChild tokens c₂ i →
      Desc tokens c₁ j → Desc tokens c₂ j → c₁ = c₂ := by
  intro m
  induction m using Nat.strong_induction_on with
  | _ m ih =>
    intro j c₁ c₂ i hdj h1 h2 hd1 hd2
    have e1 := child_depth hw h1
    have e2 := child_depth hw h2
    rcases desc_depth hw hd1 with rfl | hlt1
    · rcases desc_depth hw hd2 with rfl | hlt2
      · rfl
      · omega
    · rcases desc_depth hw hd2 with rfl | hlt2
      · omega
      · rcases desc_up hd1 with rfl | ⟨hj1, hu1⟩
        · omega
        · rcases desc_up hd2 with rfl | ⟨_, hu2⟩
          · omega
          · have hstep : d j = d ((tokAt tokens j).head_token_index) + 1 :=
              child_depth hw hj1
            exact ih (d ((tokAt tokens j).head_token_index)) (by omega) _ c₁ c₂ i
              rfl h1 h2 hu1 hu2

theorem desc_total {tokens : List Token} {root : Nat} {d : Nat → Nat}
    (hw : WellFormed tokens root d) :
    ∀ m j, j < tokens.length → d j = m → Desc tokens root j := by
  intro m
  induction m using Nat.strong_induction_on with
  | _ m ih =>
    intro j hj hdj
    by_cases hr : j = root
    · subst hr; exact Desc.refl _
    · obtain ⟨hnr, hhl, hstep⟩ := hw.step j hj hr
      have hparent : Desc tokens root ((tokAt tokens j).head_token_index) :=
        ih (d ((tokAt tokens j).head_token_index)) (by omega) _ hhl rfl
      exact desc_append hparent j ⟨hj, hnr, rfl⟩

theorem create_succ (fuel i : Nat) (tokens : List Token) :
    _create_tree (fuel + 1) i tokens = Tree.node i (tokAt tokens i).label
      (tokAt tokens i).content (tokAt tokens i).lem (tokAt tokens i).pos_tag none none
      ((childIdx tokens i).map (fun j => _create_tree fuel j tokens)) := by
  simp only [_create_tree, childIdx, List.map_map]
  rfl

theorem walk_create_succ (fuel i : Nat) (tokens : List Token) :
    (_create_tree (fuel + 1) i tokens).walk.map Tree.index =
      i :: (childIdx tokens i).flatMap
        (fun c => (_create_tree fuel c tokens).walk.map Tree.index) := by
  rw [create_succ, Tree.walk_eq]
  simp only [Tree.children, Tree.index, List.map_cons, List.map_flatMap, List.flatMap_map]

theorem mem_walk_create {tokens : List Token} {root : Nat} {d : Nat → Nat}
    (hw : WellFormed tokens root d) :
    ∀ fuel i, i < tokens.length → tokens.length - d i ≤ fuel →
      ∀ j, (j ∈ (_create_tree fuel i tokens).walk.map Tree.index ↔ Desc tokens i j) := by
  intro fuel
  induction fuel with
  | zero =>
    intro i hi hfuel j
    have := hw.depth_lt i hi
    exfalso; omega
  | succ fuel ih =>
    intro i hi hfuel j
    rw [walk_create_succ, List.mem_cons, List.mem_flatMap]
    constructor
    · rintro (rfl | ⟨c, hc, hj⟩)
      · exact Desc.refl _
      · have hcC := mem_childIdx.mp hc
        have hdc : d c = d i + 1 := child_depth hw hcC
        exact Desc.step hcC ((ih c hcC.1 (by omega) j).mp hj)
    · intro hd
      cases hd with
      | refl => exact Or.inl rfl
      | step hc hrec =>
        right
        refine ⟨_, mem_childIdx.mpr hc, ?_⟩
        have hdc := child_depth hw hc
        exact (ih _ hc.1 (by omega) j).mpr hrec

theorem nodup_walk_create {tokens : List Token} {root : Nat} {d : Nat → Nat}
    (hw : WellFormed tokens root d) :
    ∀ fuel i, i < tokens.length → tokens.length - d i ≤ fuel →
      ((_create_tree fuel i tokens).walk.map Tree.index).Nodup := by
  intro fuel
  induction fuel with
  | zero =>
    intro i hi hfuel
    have := hw.depth_lt i hi
    exfalso; omega
  | succ fuel ih =>
    intro i hi hfuel
    rw [walk_create_succ, List.nodup_cons]
    constructor
    · intro hmem
      rcases List.mem_flatMap.mp hmem with ⟨c, hc, hj⟩
      have hcC := mem_childIdx.mp hc
      have hdc : d c = d i + 1 := child_depth hw hcC
      have hdesc := (mem_walk_create hw fuel c hcC.1 (by omega) i).mp hj
      rcases desc_depth hw hdesc with rfl | hlt
      · omega
      · omega
    · rw [List.nodup_flatMap]
      constructor
      · intro c hc
        have hcC := mem_childIdx.mp hc
        have hdc : d c = d i + 1 := child_depth hw hcC
        exact ih c hcC.1 (by omega)
      · apply (childIdx_nodup tokens i).pairwise_of_forall_ne
        intro c₁ hc₁ c₂ hc₂ hne
        intro j hj1 hj2
        have h1 := mem_childIdx.mp hc₁
        have h2 := mem_childIdx.mp hc₂
        have e1 : d c₁ = d i + 1 := child_depth hw h1
        have e2 : d c₂ = d i + 1 := child_depth hw h2
        have hd1 := (mem_walk_create hw fuel c₁ h1.1 (by omega) j).mp hj1
        have hd2 := (mem_walk_create hw fuel c₂ h2.1 (by omega) j).mp hj2
        exact hne (desc_unique hw (d j) j c₁ c₂ i rfl h1 h2 hd1 hd2)

/-- C5: pre-order `walk` yields the node first and then the walks of its
children in child order; and on a well-formed single-sentence token array
(unique `ROOT`, head references forming a tree certified by the depth
function `d`) the walk of the built tree visits exactly one node per token,
the indices being a permutation of `0 .. tokens.length - 1`. -/
theorem C5_walk_partition (tokens : List Token) (root : Nat) (d : Nat → Nat)
    (hw : WellFormed tokens root d) :
    (∀ t : Tree, t.walk = t :: t.children.flatMap Tree.walk) ∧
    ((build root tokens).walk.map Tree.index).Perm (List.range tokens.length) := by
  refine ⟨Tree.walk_eq, ?_⟩
  show ((_create_tree tokens.length root tokens).walk.map Tree.index).Perm _
  have hfuel : tokens.length - d root ≤ tokens.length := Nat.sub_le _ _
  have hnodup := nodup_walk_create hw tokens.length root hw.root_lt hfuel
  have hsub : (_create_tree tokens.length root tokens).walk.map Tree.index ⊆
      List.range tokens.length := by
    intro j hj
    have hdesc := (mem_walk_create hw tokens.length root hw.root_lt hfuel j).mp hj
    exact List.mem_range.mpr (desc_lt hdesc hw.root_lt)
  have hsub' : List.range tokens.length ⊆
      (_create_tree tokens.length root tokens).walk.map Tree.index := by
    intro j hj
    exact (mem_walk_create hw tokens.length root hw.root_lt hfuel j).mpr
      (desc_total hw (d j) j (List.mem_range.mp hj) rfl)
  exact (hnodup.subperm hsub).antisymm ((List.nodup_range _).subperm hsub')

/-- C5 witness: on the concrete three-token array the walk of the built tree
visits the indices 0, 1, 2 exactly once each. -/
theorem C5_walk_partition_witness :
    ((build 0 exToks).walk.map Tree.index).Perm (List.range 3) :=
  (C5_walk_partition exToks 0 (fun j => j)
    ⟨by decide, by decide, by decide, by decide⟩).2

end NLS
